import Mathlib

/-!
Verification of the "Bony" Blender addon (`src/addons/bony/__init__.py`).

The addon's operators are thin loops over host-owned data.  We shallowly embed
the data each claim touches: 3-D vectors become triples of rationals (the host
computes in IEEE floats; ℚ is the exact-arithmetic abstraction of the same
formulas), bone/modifier collections become lists of structures, and Python
regular-expression semantics (`re` module) are translated exactly, including
the two newline rules that matter for the patterns used here: `.` never
matches a newline, and `$` matches at the end of the string or just before a
trailing newline.
-/

/-- 3-D vector, as used for `mathutils.Vector` coordinates. -/
abbrev Vec3 : Type := ℚ × ℚ × ℚ

/-- 4-component quaternion `(w, x, y, z)`. -/
abbrev Vec4 : Type := ℚ × ℚ × ℚ × ℚ

/-- `mathutils` vector-by-scalar division `v / a` (componentwise).  Python
raises `ZeroDivisionError` at `a = 0`; the model totalises that case with
`0⁻¹ = 0` (the positivity of the divisor is settled separately). -/
def vecDiv (v : Vec3) (a : ℚ) : Vec3 := a⁻¹ • v

/-- Python's `math.isclose(a, b, rel_tol, abs_tol)`:
`abs(a-b) <= max(rel_tol * max(abs(a), abs(b)), abs_tol)`. -/
def isclose (a b rel_tol abs_tol : ℚ) : Bool :=
  |a - b| ≤ max (rel_tol * max |a| |b|) abs_tol

/-- Default `rel_tol` of `math.isclose` (1e-9). -/
def relTolDefault : ℚ := 1 / 1000000000

/-- The per-vertex weight computed inside `calculate_new_co`:
`1e4 if math.isclose(dist, 0) else 1 / dist`. -/
def kdWeight (dist : ℚ) : ℚ :=
  if isclose dist 0 relTolDefault 0 then 10000 else 1 / dist

/-- The loop of `calculate_new_co`: folds the KD-query triples
`(position, index, dist)` into `(total_weight, total_delta)`.  Out-of-range
indices (which the source would raise on, but which cannot occur because the
indices come from `enumerate` over the same mesh) are totalised with `getD`. -/
def calcAccum (evaluated_vertices raw_vertices : List Vec3)
    (triples : List (Vec3 × ℕ × ℚ)) : ℚ × Vec3 :=
  triples.foldl
    (fun acc t =>
      let ev := evaluated_vertices.getD t.2.1 0
      let rv := raw_vertices.getD t.2.1 0
      let weight := kdWeight t.2.2
      (acc.1 + weight, acc.2 + weight • (ev - rv)))
    (0, 0)

/-- `RepositionBones.execute.calculate_new_co`.  The KD tree is passed as the
query function it provides: `kd co group_size` models
`kd.find_n(co, group_size)` returning `(position, index, dist)` triples. -/
def calculate_new_co (co : Vec3) (group_size : ℕ)
    (evaluated_vertices raw_vertices : List Vec3)
    (kd : Vec3 → ℕ → List (Vec3 × ℕ × ℚ)) : Vec3 :=
  let acc := calcAccum evaluated_vertices raw_vertices (kd co group_size)
  co + vecDiv acc.2 acc.1

/-- Generic shape of the loop: a pair-fold that accumulates two sums. -/
theorem foldl_pair_sum {α : Type} (f : α → ℚ) (g : α → Vec3) (l : List α)
    (a : ℚ) (v : Vec3) :
    l.foldl (fun acc t => (acc.1 + f t, acc.2 + g t)) (a, v)
      = (a + (l.map f).sum, v + (l.map g).sum) := by
  induction l generalizing a v with
  | nil => simp
  | cons t rest ih =>
      simp only [List.foldl_cons, List.map_cons, List.sum_cons, ih]
      simp [add_assoc]

/-- `calcAccum` computes the sum of the weights and the weighted sum of the
per-vertex displacements. -/
theorem calcAccum_eq (ev rv : List Vec3) (l : List (Vec3 × ℕ × ℚ)) :
    calcAccum ev rv l
      = ((l.map fun t => kdWeight t.2.2).sum,
         (l.map fun t => kdWeight t.2.2 • (ev.getD t.2.1 0 - rv.getD t.2.1 0)).sum) := by
  have h := foldl_pair_sum (fun t : Vec3 × ℕ × ℚ => kdWeight t.2.2)
    (fun t => kdWeight t.2.2 • (ev.getD t.2.1 0 - rv.getD t.2.1 0)) l 0 0
  simp only [zero_add] at h
  exact h

/-- C1: for every endpoint coordinate `co`, `calculate_new_co` returns `co`
plus the inverse-distance-weighted average displacement over the vertices the
KD-tree query returns: with the query returning `(position, index i, dist)`
triples, each weight is `1/dist` except the fixed constant `1e4` when `dist`
is close to zero (Python's `math.isclose(dist, 0)` with default tolerances),
and the result is
`co + (Σ wᵢ • (evaluated_vertices[i] - raw_vertices[i])) / (Σ wᵢ)`. -/
theorem calculate_new_co_spec (co : Vec3) (group_size : ℕ)
    (evaluated_vertices raw_vertices : List Vec3)
    (kd : Vec3 → ℕ → List (Vec3 × ℕ × ℚ)) :
    calculate_new_co co group_size evaluated_vertices raw_vertices kd
      = co + vecDiv
          (((kd co group_size).map fun t =>
              (if isclose t.2.2 0 relTolDefault 0 then 10000 else 1 / t.2.2) •
                (evaluated_vertices.getD t.2.1 0 - raw_vertices.getD t.2.1 0)).sum)
          (((kd co group_size).map fun t =>
              (if isclose t.2.2 0 relTolDefault 0 then 10000 else 1 / t.2.2)).sum) := by
  unfold calculate_new_co
  rw [calcAccum_eq]
  rfl

/-- The entry list the KD tree is built from:
`for i, v in enumerate(mesh.vertices): kd.insert(obj.matrix_world @ v.co, i)`.
`kdEntriesFrom i vs` inserts the vertices `vs` with consecutive indices
starting at `i`. -/
def kdEntriesFrom (i : ℕ) : List Vec3 → List (Vec3 × ℕ)
  | [] => []
  | v :: vs => (v, i) :: kdEntriesFrom (i + 1) vs

/-- All `(world-space vertex, index)` pairs inserted into the KD tree. -/
def kdEntries (raw : List Vec3) : List (Vec3 × ℕ) := kdEntriesFrom 0 raw

/-- Comparison of KD-query triples by their distance component. -/
def distLE (a b : Vec3 × ℕ × ℚ) : Prop := a.2.2 ≤ b.2.2

instance : DecidableRel distLE :=
  fun a b => inferInstanceAs (Decidable (a.2.2 ≤ b.2.2))

instance : IsTotal (Vec3 × ℕ × ℚ) distLE := ⟨fun a b => le_total a.2.2 b.2.2⟩

instance : IsTrans (Vec3 × ℕ × ℚ) distLE := ⟨fun _ _ _ hab hbc => le_trans hab hbc⟩

/-- Every stored entry decorated with its distance to the query point:
the `(position, index, dist)` triples `find_n` chooses from.  The distance
function `d` is a parameter (the host uses Euclidean distance). -/
def distTriples (d : Vec3 → Vec3 → ℚ) (entries : List (Vec3 × ℕ))
    (co : Vec3) : List (Vec3 × ℕ × ℚ) :=
  entries.map fun e => (e.1, e.2, d co e.1)

/-- `mathutils.kdtree.KDTree.find_n(co, n)`: the `n` entries nearest to `co`,
in order of increasing distance. -/
def kdFindN (d : Vec3 → Vec3 → ℚ) (entries : List (Vec3 × ℕ))
    (co : Vec3) (n : ℕ) : List (Vec3 × ℕ × ℚ) :=
  (List.insertionSort distLE (distTriples d entries co)).take n

theorem kdEntriesFrom_mem {raw : List Vec3} {i j : ℕ} {p : Vec3}
    (h : (p, j) ∈ kdEntriesFrom i raw) : ∃ k, j = i + k ∧ raw[k]? = some p := by
  induction raw generalizing i with
  | nil => simp [kdEntriesFrom] at h
  | cons v vs ih =>
      simp only [kdEntriesFrom, List.mem_cons] at h
      rcases h with h | h
      · have h1 : p = v := congrArg Prod.fst h
        have h2 : j = i := congrArg Prod.snd h
        subst h1; subst h2
        exact ⟨0, by simp⟩
      · obtain ⟨k, rfl, hk⟩ := ih h
        exact ⟨k + 1, by omega, by simpa using hk⟩

theorem kdEntries_mem {raw : List Vec3} {j : ℕ} {p : Vec3}
    (h : (p, j) ∈ kdEntries raw) : raw[j]? = some p := by
  obtain ⟨k, hk, h⟩ := kdEntriesFrom_mem h
  simpa [hk] using h

/-- Every triple `find_n` returns is a stored entry with its distance. -/
theorem kdFindN_mem {d : Vec3 → Vec3 → ℚ} {entries : List (Vec3 × ℕ)}
    {co : Vec3} {n : ℕ} {t : Vec3 × ℕ × ℚ} (ht : t ∈ kdFindN d entries co n) :
    ∃ e ∈ entries, t = (e.1, e.2, d co e.1) := by
  have h1 : t ∈ List.insertionSort distLE (distTriples d entries co) :=
    List.mem_of_mem_take ht
  have h2 : t ∈ distTriples d entries co :=
    (List.perm_insertionSort distLE (distTriples d entries co)).subset h1
  obtain ⟨e, he, heq⟩ := List.mem_map.mp h2
  exact ⟨e, he, heq.symm⟩

/-- C2: the nearest-neighbor index of `RepositionBones.execute` holds exactly
the undeformed mesh's vertices transformed to world space, every triple the
query returns carries such a vertex at its own index together with its
distance to the query point, the returned triples are the `n` nearest ones
(every unreturned entry is at least as far), and the displacement the
composed `calculate_new_co` applies for a selected index `i` goes from
`raw_vertices[i]` to `evaluated_vertices[i]` of that same index. -/
theorem repositionBones_kdtree_spec (d : Vec3 → Vec3 → ℚ) (w : Vec3 → Vec3)
    (meshVerts evaluated_vertices : List Vec3) (co : Vec3) (n : ℕ) :
    (∀ t ∈ kdFindN d (kdEntries (meshVerts.map w)) co n,
        (meshVerts.map w)[t.2.1]? = some t.1 ∧ t.2.2 = d co t.1)
    ∧ (∃ rest,
        List.Perm (distTriples d (kdEntries (meshVerts.map w)) co)
          (kdFindN d (kdEntries (meshVerts.map w)) co n ++ rest)
        ∧ ∀ t ∈ kdFindN d (kdEntries (meshVerts.map w)) co n,
            ∀ u ∈ rest, t.2.2 ≤ u.2.2)
    ∧ calculate_new_co co n evaluated_vertices (meshVerts.map w)
        (fun c m => kdFindN d (kdEntries (meshVerts.map w)) c m)
      = co + vecDiv
          (((kdFindN d (kdEntries (meshVerts.map w)) co n).map fun t =>
              kdWeight t.2.2 •
                (evaluated_vertices.getD t.2.1 0 - (meshVerts.map w).getD t.2.1 0)).sum)
          (((kdFindN d (kdEntries (meshVerts.map w)) co n).map fun t =>
              kdWeight t.2.2).sum) := by
  refine ⟨?_, ?_, ?_⟩
  · intro t ht
    obtain ⟨e, he, rfl⟩ := kdFindN_mem ht
    refine ⟨?_, rfl⟩
    exact kdEntries_mem (p := e.1) (j := e.2) (by simpa using he)
  · refine ⟨(List.insertionSort distLE (distTriples d (kdEntries (meshVerts.map w)) co)).drop n,
      ?_, ?_⟩
    · rw [kdFindN, List.take_append_drop]
      exact (List.perm_insertionSort distLE _).symm
    · have hs := List.sorted_insertionSort distLE (distTriples d (kdEntries (meshVerts.map w)) co)
      have hpw : List.Pairwise distLE
          ((List.insertionSort distLE (distTriples d (kdEntries (meshVerts.map w)) co)).take n
            ++ (List.insertionSort distLE (distTriples d (kdEntries (meshVerts.map w)) co)).drop n) := by
        rw [List.take_append_drop]; exact hs
      exact fun t ht u hu => (List.pairwise_append.mp hpw).2.2 t ht u hu
  · unfold calculate_new_co
    rw [calcAccum_eq]

theorem isclose_zero : isclose 0 0 relTolDefault 0 = true := by
  simp [isclose]

/-- A weight computed from a nonnegative distance is strictly positive. -/
theorem kdWeight_pos {dist : ℚ} (hd : 0 ≤ dist) : 0 < kdWeight dist := by
  unfold kdWeight
  split
  · norm_num
  · rename_i h
    have hne : dist ≠ 0 := by
      intro h0
      rw [h0] at h
      exact h isclose_zero
    have : 0 < dist := lt_of_le_of_ne hd (Ne.symm hne)
    positivity

/-- C10: whenever the KD query returns at least one vertex — which happens as
soon as the mesh is non-empty, since `N_CLOSEST_VER = 10 > 0` — every
per-vertex weight is strictly positive and therefore the `total_weight` that
`calculate_new_co` divides by is strictly positive, so the division never
divides by zero. -/
theorem calc_total_weight_pos (d : Vec3 → Vec3 → ℚ) (entries : List (Vec3 × ℕ))
    (co : Vec3) (n : ℕ) (ev rv : List Vec3)
    (hd : ∀ p q, 0 ≤ d p q) (hne : entries ≠ []) (hn : 0 < n) :
    (∀ t ∈ kdFindN d entries co n, 0 < kdWeight t.2.2)
    ∧ 0 < (calcAccum ev rv (kdFindN d entries co n)).1 := by
  have hpos : ∀ t ∈ kdFindN d entries co n, 0 < kdWeight t.2.2 := by
    intro t ht
    obtain ⟨e, _, rfl⟩ := kdFindN_mem ht
    exact kdWeight_pos (hd co e.1)
  refine ⟨hpos, ?_⟩
  rw [calcAccum_eq]
  apply List.sum_pos
  · intro x hx
    obtain ⟨t, ht, rfl⟩ := List.mem_map.mp hx
    exact hpos t ht
  · have hlen : 0 < (kdFindN d entries co n).length := by
      rw [kdFindN, List.length_take, (List.perm_insertionSort distLE _).length_eq]
      have : 0 < (distTriples d entries co).length := by
        rw [distTriples, List.length_map]
        exact List.length_pos.mpr hne
      exact lt_min hn this
    intro hmapnil
    rw [List.map_eq_nil_iff] at hmapnil
    rw [hmapnil] at hlen
    simp at hlen

/-- Split a Python-regex subject for an `$`-anchored match: `$` matches at
the end of the string or just before a single trailing newline, so the
matchable body is the string minus an optional trailing `'\n'` (returned as
the second component, which the replacement leaves in place). -/
def splitTrailNl (s : List Char) : List Char × List Char :=
  if s.getLast? = some '\n' then (s.dropLast, ['\n']) else (s, [])

/-- The character class `(l|r)` of `RenameDazBones`. -/
def isLR (c : Char) : Bool := c == 'l' || c == 'r'

/-- The character class `[A-Z]`. -/
def isUpperAZ (c : Char) : Bool := decide ('A' ≤ c) && decide (c ≤ 'Z')

/-- `.` in a Python regex (no DOTALL) matches every character but `'\n'`;
a body consumed by `.*` must therefore be newline-free. -/
def noNl (l : List Char) : Bool := l.all fun c => c != '\n'

/-- Whether `re.compile(r"^(l|r)([A-Z]+.*)$")` matches the name: a body equal
to the whole string minus an optional trailing newline, consisting of `l` or
`r`, one uppercase letter, and a newline-free remainder (`[A-Z]+.*` accepts
exactly one uppercase letter followed by any newline-free characters). -/
def dazMatches (s : List Char) : Bool :=
  match (splitTrailNl s).1 with
  | p :: u :: rest => isLR p && isUpperAZ u && noNl rest
  | _ => false

/-- `RenameDazBones.execute`'s substitution
`p.sub(lambda m: f"{m.group(2)}_{m.group(1).upper()}", name)`: a matching
name is replaced by the remainder, an underscore, and the uppercased prefix
(any trailing newline stays, as `sub` only replaces the matched span);
a non-matching name is returned unchanged. -/
def renameDaz (s : List Char) : List Char :=
  match splitTrailNl s with
  | (p :: u :: rest, tl) =>
      if isLR p && isUpperAZ u && noNl rest then
        (u :: rest) ++ ['_', p.toUpper] ++ tl
      else s
  | _ => s

theorem getLast?_mem_of_eq_some {l : List Char} {a : Char}
    (h : l.getLast? = some a) : a ∈ l := by
  obtain ⟨hne, ha⟩ := List.mem_getLast?_eq_getLast (show a ∈ l.getLast? from h)
  rw [ha]
  exact List.getLast_mem hne

/-- Full case analysis of `renameDaz`. -/
theorem renameDaz_cases (s : List Char) :
    (∃ p u rest tl, splitTrailNl s = (p :: u :: rest, tl)
        ∧ isLR p = true ∧ isUpperAZ u = true ∧ noNl rest = true
        ∧ renameDaz s = (u :: rest) ++ ['_', p.toUpper] ++ tl)
    ∨ (dazMatches s = false ∧ renameDaz s = s) := by
  unfold renameDaz dazMatches
  rcases h : splitTrailNl s with ⟨core, tl⟩
  cases core with
  | nil => right; simp [h]
  | cons p rest0 =>
      cases rest0 with
      | nil => right; simp [h]
      | cons u rest =>
          by_cases hc : (isLR p && isUpperAZ u && noNl rest) = true
          · left
            obtain ⟨⟨hp, hu⟩, hr⟩ :
                (isLR p = true ∧ isUpperAZ u = true) ∧ noNl rest = true := by
              simpa [Bool.and_eq_true] using hc
            exact ⟨p, u, rest, tl, rfl, hp, hu, hr, by simp [h, hc]⟩
          · right
            constructor
            · simp only [h]
              exact Bool.not_eq_true _ ▸ hc
            · simp [h, hc]

theorem isUpperAZ_ne_nl {u : Char} (hu : isUpperAZ u = true) : u ≠ '\n' := by
  rintro rfl
  exact absurd hu (by decide)

theorem isLR_ne_nl {p : Char} (hp : isLR p = true) : p ≠ '\n' := by
  rintro rfl
  exact absurd hp (by decide)

theorem isUpperAZ_not_lr {u : Char} (hu : isUpperAZ u = true) : isLR u = false := by
  have h1 : u ≠ 'l' := by rintro rfl; exact absurd hu (by decide)
  have h2 : u ≠ 'r' := by rintro rfl; exact absurd hu (by decide)
  simp [isLR, h1, h2]

/-- A name whose first character is not `l` or `r` is left unchanged. -/
theorem renameDaz_head_not_lr (c : Char) (cs : List Char) (hc : isLR c = false) :
    renameDaz (c :: cs) = c :: cs := by
  rcases renameDaz_cases (c :: cs) with ⟨p, u, rest, tl, hsplit, hp, _, _, _⟩ | ⟨_, heq⟩
  · exfalso
    have hcore : (splitTrailNl (c :: cs)).1 = p :: u :: rest := by rw [hsplit]
    have hhead : p = c := by
      unfold splitTrailNl at hcore
      split at hcore
      · cases cs with
        | nil => simp at hcore
        | cons x xs =>
            have : (c :: x :: xs).dropLast = c :: (x :: xs).dropLast := rfl
            rw [this] at hcore
            exact (List.cons.injEq .. ▸ hcore).1.symm
      · exact (List.cons.injEq .. ▸ hcore).1.symm
    rw [hhead] at hp
    rw [hp] at hc
    exact Bool.true_eq_false ▸ hc
  · exact heq

/-- The subject splits cleanly when the body is newline-free and the optional
tail is empty or a single newline. -/
theorem splitTrailNl_body (p u : Char) (rest tl : List Char)
    (hp : isLR p = true) (hu : isUpperAZ u = true) (hr : noNl rest = true)
    (htl : tl = [] ∨ tl = ['\n']) :
    splitTrailNl (p :: u :: rest ++ tl) = (p :: u :: rest, tl) := by
  rcases htl with rfl | rfl
  · unfold splitTrailNl
    rw [if_neg]
    · simp
    · intro hlast
      have hmem : '\n' ∈ p :: u :: rest ++ [] := getLast?_mem_of_eq_some hlast
      simp only [List.append_nil, List.mem_cons] at hmem
      rcases hmem with h | h | h
      · exact isLR_ne_nl hp h.symm
      · exact isUpperAZ_ne_nl hu h.symm
      · have := List.all_eq_true.mp hr _ h
        simp at this
  · unfold splitTrailNl
    have h1 : (p :: u :: rest ++ ['\n']).getLast? = some '\n' := by
      have : p :: u :: rest ++ ['\n'] = (p :: u :: rest) ++ ['\n'] := by simp
      rw [this, List.getLast?_concat]
    rw [if_pos h1]
    have h2 : (p :: u :: rest ++ ['\n']).dropLast = p :: u :: rest := by
      have : p :: u :: rest ++ ['\n'] = (p :: u :: rest) ++ ['\n'] := by simp
      rw [this, List.dropLast_concat]
    rw [h2]

/-- Evaluation of `renameDaz` on a matching subject. -/
theorem renameDaz_match (p u : Char) (rest tl : List Char)
    (hp : isLR p = true) (hu : isUpperAZ u = true) (hr : noNl rest = true)
    (htl : tl = [] ∨ tl = ['\n']) :
    renameDaz (p :: u :: rest ++ tl) = (u :: rest) ++ ['_', p.toUpper] ++ tl := by
  unfold renameDaz
  rw [splitTrailNl_body p u rest tl hp hu hr htl]
  simp [hp, hu, hr]

/-- C4 (amended): `RenameDazBones` renames by Python `re` semantics of
`^(l|r)([A-Z]+.*)$`: a name made of a lowercase `l` or `r`, an uppercase
letter, a newline-free remainder and an optional single trailing newline
becomes the remainder followed by an underscore and the uppercased prefix,
with the trailing newline (if any) kept after the replacement
(`lForearmBend ↦ ForearmBend_L`, `rForearmBend ↦ ForearmBend_R`); every name
the pattern does not match is left unchanged. -/
theorem renameDazBones_rule (s : List Char) (p u : Char) (rest tl : List Char) :
    (s = p :: u :: rest ++ tl → isLR p = true → isUpperAZ u = true →
        noNl rest = true → (tl = [] ∨ tl = ['\n']) →
        renameDaz s = (u :: rest) ++ ['_', p.toUpper] ++ tl)
    ∧ (dazMatches s = false → renameDaz s = s)
    ∧ renameDaz "lForearmBend".data = "ForearmBend_L".data
    ∧ renameDaz "rForearmBend".data = "ForearmBend_R".data := by
  refine ⟨?_, ?_, by decide, by decide⟩
  · rintro rfl hp hu hr htl
    exact renameDaz_match p u rest tl hp hu hr htl
  · intro h
    rcases renameDaz_cases s with ⟨p', u', rest', tl', hsplit, hp', hu', hr', _⟩ | ⟨_, heq⟩
    · exfalso
      unfold dazMatches at h
      rw [hsplit] at h
      simp [hp', hu', hr'] at h
    · exact heq

/-- C4 counterexample: on the name `"lA\n"` the code produces `"A_L\n"` —
Python's `$` matches before the trailing newline, so the name is neither
left unchanged (it is not a full match of the pattern) nor rewritten to
remainder-underscore-prefix (`"A_L"`). -/
theorem renameDazBones_counterexample :
    renameDaz "lA\n".data = "A_L\n".data
    ∧ renameDaz "lA\n".data ≠ "lA\n".data
    ∧ renameDaz "lA\n".data ≠ "A_L".data := by decide

/-- C9: the renaming substitution is idempotent on every string: a renamed
name starts with the uppercase letter of `group(2)`, which is neither `l`
nor `r`, so it can never match the pattern again. -/
theorem renameDaz_idempotent (s : List Char) :
    renameDaz (renameDaz s) = renameDaz s := by
  rcases renameDaz_cases s with ⟨p, u, rest, tl, _, _, hu, _, heq⟩ | ⟨_, heq⟩
  · rw [heq]
    have h2 : (u :: rest) ++ ['_', p.toUpper] ++ tl
        = u :: (rest ++ ['_', p.toUpper] ++ tl) := by simp
    rw [h2]
    exact renameDaz_head_not_lr u _ (isUpperAZ_not_lr hu)
  · rw [heq]
    exact heq

/-- In-place update of the first element a collection lookup by name hits:
Blender collections (`pose.bones.get(name)`, `modifiers` by name) return the
first element with the given key and the code then mutates its fields. -/
def updateFirst {α : Type} (p : α → Prop) [DecidablePred p] (f : α → α) :
    List α → List α
  | [] => []
  | x :: xs => if p x then f x :: xs else x :: updateFirst p f xs

/-- With pairwise-distinct keys, updating the first element with a given key
is the same as updating every element with that key. -/
theorem updateFirst_eq_map {α β : Type} [DecidableEq β] (key : α → β) (n : β)
    (f : α → α) (l : List α) (hnd : (l.map key).Nodup) :
    updateFirst (fun a => key a = n) f l
      = l.map fun a => if key a = n then f a else a := by
  induction l with
  | nil => rfl
  | cons x xs ih =>
      simp only [List.map_cons, List.nodup_cons] at hnd
      obtain ⟨hx, hxs⟩ := hnd
      unfold updateFirst
      by_cases hkx : key x = n
      · rw [if_pos hkx, List.map_cons, if_pos hkx]
        congr 1
        have hall : ∀ a ∈ xs, (if key a = n then f a else a) = a := by
          intro a ha
          rw [if_neg]
          intro hka
          have hmem : key a ∈ List.map key xs := List.mem_map_of_mem key ha
          rw [hka, ← hkx] at hmem
          exact hx hmem
        rw [List.map_congr_left hall]
        exact (List.map_id xs).symm
      · rw [if_neg hkx, List.map_cons, if_neg hkx, ih hxs]

/-- A pose bone as `CopyCustomShapes` sees it: a name and a custom shape
(an optional reference to a shape object, here an opaque id). -/
structure CBone where
  name : List Char
  custom_shape : Option ℕ
deriving DecidableEq

/-- `CopyCustomShapes.execute.copy_custom_shapes(source, target)`:
`for source_bone in source.bones: target_bone = target.bones.get(...); if
target_bone: target_bone.custom_shape = source_bone.custom_shape`. -/
def copy_custom_shapes (source target : List CBone) : List CBone :=
  source.foldl
    (fun tgt sb =>
      updateFirst (fun b => b.name = sb.name)
        (fun b => { b with custom_shape := sb.custom_shape }) tgt)
    target

/-- C6: with bone names unique inside each armature (a host invariant),
copying custom shapes rewrites each target bone whose name occurs among the
source's bones to carry that source bone's `custom_shape`, and leaves every
other target bone unchanged. -/
theorem copyCustomShapes_spec (source target : List CBone)
    (hs : (source.map CBone.name).Nodup) (ht : (target.map CBone.name).Nodup) :
    copy_custom_shapes source target
      = target.map fun b =>
          match source.find? (fun sb => sb.name = b.name) with
          | some sb => { b with custom_shape := sb.custom_shape }
          | none => b := by
  induction source generalizing target with
  | nil =>
      simp only [copy_custom_shapes, List.foldl_nil, List.find?_nil]
      have : ∀ b ∈ target, (match (none : Option CBone) with
          | some sb => { b with custom_shape := sb.custom_shape }
          | none => b) = id b := fun b _ => rfl
      rw [List.map_congr_left this, List.map_id]
  | cons sb rest ih =>
      simp only [List.map_cons, List.nodup_cons] at hs
      obtain ⟨hsb, hrest⟩ := hs
      simp only [copy_custom_shapes, List.foldl_cons]
      have hstep : updateFirst (fun b => b.name = sb.name)
            (fun b => { b with custom_shape := sb.custom_shape }) target
          = target.map fun b =>
              if b.name = sb.name then { b with custom_shape := sb.custom_shape } else b :=
        updateFirst_eq_map CBone.name sb.name _ target ht
      have hnames' : ((target.map fun b =>
            if b.name = sb.name then { b with custom_shape := sb.custom_shape } else b).map
              CBone.name) = target.map CBone.name := by
        rw [List.map_map]
        apply List.map_congr_left
        intro b _
        by_cases hb : b.name = sb.name <;> simp [hb]
      have ih' := ih ((target.map fun b =>
          if b.name = sb.name then { b with custom_shape := sb.custom_shape } else b))
        hrest (by rw [hnames']; exact ht)
      rw [hstep]
      show copy_custom_shapes rest _ = _
      rw [ih', List.map_map]
      apply List.map_congr_left
      intro b _
      obtain ⟨bn, bs⟩ := b
      dsimp only [Function.comp_apply]
      by_cases hb : bn = sb.name
      · rw [if_pos hb, List.find?_cons_of_pos _ (by simp [hb])]
        have hfind : rest.find? (fun x => decide (x.name = bn)) = none := by
          rw [List.find?_eq_none]
          intro x hx
          simp only [decide_eq_true_eq]
          intro hxb
          have hmem : x.name ∈ List.map CBone.name rest := List.mem_map_of_mem CBone.name hx
          rw [hxb, hb] at hmem
          exact hsb hmem
        dsimp only
        rw [hfind]
      · rw [if_neg hb, List.find?_cons_of_neg _
          (by exact fun hdec => hb (of_decide_eq_true hdec).symm)]

/-- A pose bone as `SymmetrizeIKConstraints` sees it.  `rotation_mode` is an
opaque enum (modelled by a number); the six ik limits are floats. -/
structure IkBone where
  name : List Char
  rotation_mode : ℕ
  ik_min_x : ℚ
  ik_max_x : ℚ
  ik_min_y : ℚ
  ik_max_y : ℚ
  ik_min_z : ℚ
  ik_max_z : ℚ
deriving DecidableEq

/-- `symmetrize_ik_constraints(lb, rb)` together with the assignment
`rb.rotation_mode = lb.rotation_mode` performed just before the call. -/
def mirrorIk (lb rb : IkBone) : IkBone :=
  { rb with
    rotation_mode := lb.rotation_mode
    ik_min_x := lb.ik_min_x
    ik_max_x := lb.ik_max_x
    ik_min_y := -lb.ik_max_y
    ik_max_y := -lb.ik_min_y
    ik_min_z := -lb.ik_max_z
    ik_max_z := -lb.ik_min_z }

/-- `SymmetrizeIKConstraints.execute.get_right_bone_name`: match
`^(.+)_L$` (Python semantics: `$` also matches before one trailing newline,
and the `.`-matched group may not contain a newline) and append `_R` to the
stem.  The greedy `(.+)` takes everything before the final `_L`. -/
def getRightBoneName (lbname : List Char) : Option (List Char) :=
  match (splitTrailNl lbname).1.reverse with
  | 'L' :: '_' :: c :: stemRev =>
      if noNl (c :: stemRev) then some ((c :: stemRev).reverse ++ ['_', 'R'])
      else none
  | _ => none

/-- `rb = obj.pose.bones.get(rbname)` followed by the field copies onto `rb`;
when no bone has that name the iteration does nothing. -/
def setIkByName (bones : List IkBone) (rbname : List Char) (lb : IkBone) :
    List IkBone :=
  updateFirst (fun b => b.name = rbname) (mirrorIk lb) bones

/-- One iteration of `for lb in obj.pose.bones`: the loop walks the live
collection by position; membership, order and names never change (only ik
fields and rotation modes are written), so iteration `i` reads the current
state's bone at position `i`. -/
def symStep (bones : List IkBone) (i : ℕ) : List IkBone :=
  match bones[i]? with
  | some lb =>
      match getRightBoneName lb.name with
      | some rbname => setIkByName bones rbname lb
      | none => bones
  | none => bones

/-- The state after the first `k` iterations of the pose-bone loop. -/
def loopK (bones : List IkBone) (k : ℕ) : List IkBone :=
  (List.range k).foldl symStep bones

/-- The whole pose-bone loop of `SymmetrizeIKConstraints.execute` (run after
the host's `armature.symmetrize` operator; the bone list is the collection
as that operator left it). -/
def symmetrizeLoop (bones : List IkBone) : List IkBone :=
  (List.range bones.length).foldl symStep bones

theorem loopK_succ (bones : List IkBone) (k : ℕ) :
    loopK bones (k + 1) = symStep (loopK bones k) k := by
  rw [loopK, List.range_succ, List.foldl_append]
  rfl

/-- A produced right-bone name never itself matches `^(.+)_L$`: it ends in
`R`. -/
theorem getRightBoneName_no_chain {m t : List Char}
    (h : getRightBoneName m = some t) : getRightBoneName t = none := by
  unfold getRightBoneName at h
  split at h
  · rename_i c stemRev heq
    split at h
    · have ht : t = (c :: stemRev).reverse ++ ['_', 'R'] := (Option.some.injEq .. ▸ h).symm
      subst ht
      have hlast : ((c :: stemRev).reverse ++ ['_', 'R']).getLast? = some 'R' := by
        rw [List.getLast?_append]
        rfl
      have hsplit : splitTrailNl ((c :: stemRev).reverse ++ ['_', 'R'])
          = ((c :: stemRev).reverse ++ ['_', 'R'], []) := by
        unfold splitTrailNl
        rw [if_neg]
        rw [hlast]
        intro hcontra
        exact absurd (Option.some.injEq .. ▸ hcontra) (by decide)
      unfold getRightBoneName
      rw [hsplit]
      have hrev : (((c :: stemRev).reverse ++ ['_', 'R']) : List Char).reverse
          = 'R' :: '_' :: c :: stemRev := by
        rw [List.reverse_append, List.reverse_reverse]
        rfl
      rw [hrev]
      rfl
    · exact absurd h (by simp)
  · exact absurd h (by simp)

/-- Invariant of the symmetrize loop.  Names never change; a bone named like
the distinguished left bone keeps its value throughout (left bones are never
write targets, since every write target ends in `_R`); the bone named
`rbname` holds its initial value until iteration `jl` runs, and the mirror of
the left bone afterwards. -/
theorem symLoop_invariant (bones : List IkBone) (lb : IkBone)
    (rbname : List Char) (jl : ℕ)
    (hnd : (bones.map IkBone.name).Nodup)
    (hjl : bones[jl]? = some lb)
    (hr : getRightBoneName lb.name = some rbname)
    (huniq : ∀ b ∈ bones, getRightBoneName b.name = some rbname → b.name = lb.name)
    (k : ℕ) :
    (loopK bones k).map IkBone.name = bones.map IkBone.name
    ∧ (∀ (j : ℕ) (b : IkBone), bones[j]? = some b → b.name = lb.name →
        (loopK bones k)[j]? = some b)
    ∧ (∀ (j : ℕ) (b : IkBone), bones[j]? = some b → b.name = rbname →
        (loopK bones k)[j]? = some (if jl < k then mirrorIk lb b else b)) := by
  obtain ⟨hjllen, -⟩ := List.getElem?_eq_some.mp hjl
  have hlb_ne_rb : lb.name ≠ rbname := by
    intro h
    have hnone := getRightBoneName_no_chain hr
    rw [← h] at hnone
    rw [hnone] at hr
    cases hr
  induction k with
  | zero =>
      refine ⟨rfl, ?_, ?_⟩
      · intro j b hj _
        exact hj
      · intro j b hj _
        rw [if_neg (Nat.not_lt_zero jl)]
        exact hj
  | succ k ih =>
      obtain ⟨hnames, hleft, hright⟩ := ih
      rw [loopK_succ]
      set s := loopK bones k with hsdef
      have hsnd : (s.map IkBone.name).Nodup := by rw [hnames]; exact hnd
      cases hsk : s[k]? with
      | none =>
          have hslen : s.length = bones.length := by
            have hl := congrArg List.length hnames
            simpa using hl
          have hklen : bones.length ≤ k := by
            have h0 := List.getElem?_eq_none_iff.mp hsk
            omega
          have hjlk : jl < k := lt_of_lt_of_le hjllen hklen
          have hstep : symStep s k = s := by simp only [symStep, hsk]
          rw [hstep]
          refine ⟨hnames, hleft, fun j b hj hb => ?_⟩
          rw [if_pos (Nat.lt_succ_of_lt hjlk)]
          have h0 := hright j b hj hb
          rwa [if_pos hjlk] at h0
      | some cur =>
          have hbkx : ∃ bk, bones[k]? = some bk ∧ bk.name = cur.name := by
            have h1 : (s.map IkBone.name)[k]? = some cur.name := by
              rw [List.getElem?_map, hsk]; rfl
            rw [hnames, List.getElem?_map] at h1
            cases hbk0 : bones[k]? with
            | none => rw [hbk0] at h1; simp at h1
            | some bk =>
                rw [hbk0] at h1
                refine ⟨bk, rfl, ?_⟩
                simpa using h1
          obtain ⟨bk, hbk, hbkname⟩ := hbkx
          have hcur_lb : jl = k → cur = lb := by
            rintro rfl
            have hs1 := hleft jl lb hjl rfl
            rw [hsk] at hs1
            exact Option.some.inj hs1
          cases hg : getRightBoneName cur.name with
          | none =>
              have hstep : symStep s k = s := by simp only [symStep, hsk, hg]
              have hjlnek : jl ≠ k := by
                rintro rfl
                rw [hcur_lb rfl, hr] at hg
                cases hg
              rw [hstep]
              refine ⟨hnames, hleft, fun j b hj hb => ?_⟩
              by_cases hjk : jl < k
              · rw [if_pos (by omega : jl < k + 1)]
                have h0 := hright j b hj hb
                rwa [if_pos hjk] at h0
              · rw [if_neg (by omega : ¬ jl < k + 1)]
                have h0 := hright j b hj hb
                rwa [if_neg hjk] at h0
          | some t =>
              have hstep : symStep s k = setIkByName s t cur := by
                simp only [symStep, hsk, hg]
              have hmap : setIkByName s t cur
                  = s.map fun b => if b.name = t then mirrorIk cur b else b :=
                updateFirst_eq_map IkBone.name t (mirrorIk cur) s hsnd
              have hnames' : (symStep s k).map IkBone.name = bones.map IkBone.name := by
                rw [hstep, hmap, List.map_map, ← hnames]
                apply List.map_congr_left
                intro a _
                by_cases ha : a.name = t <;> simp [ha, mirrorIk]
              by_cases htr : t = rbname
              · subst htr
                have hbkmem : bk ∈ bones := by
                  obtain ⟨hlt, hget⟩ := List.getElem?_eq_some.mp hbk
                  exact hget ▸ List.getElem_mem hlt
                have hbklb : bk.name = lb.name :=
                  huniq bk hbkmem (by rw [hbkname]; exact hg)
                have h2 : (bones.map IkBone.name)[k]? = (bones.map IkBone.name)[jl]? := by
                  rw [List.getElem?_map, List.getElem?_map, hbk, hjl]
                  simp [hbklb]
                have hklen2 : k < (bones.map IkBone.name).length := by
                  obtain ⟨hlt, -⟩ := List.getElem?_eq_some.mp hbk
                  simpa using hlt
                obtain rfl : k = jl := List.getElem?_inj hklen2 hnd h2
                have hcurlb : cur = lb := hcur_lb rfl
                subst hcurlb
                refine ⟨hnames', ?_, ?_⟩
                · intro j b hj hb
                  rw [hstep, hmap, List.getElem?_map, hleft j b hj hb]
                  simp only [Option.map_some']
                  rw [if_neg (show ¬ b.name = t from by rw [hb]; exact hlb_ne_rb)]
                · intro j b hj hb
                  rw [hstep, hmap, List.getElem?_map, hright j b hj hb]
                  rw [if_neg (lt_irrefl k), if_pos (Nat.lt_succ_self k)]
                  simp only [Option.map_some']
                  rw [if_pos hb]
              · have hjlnek : jl ≠ k := by
                  rintro rfl
                  rw [hcur_lb rfl, hr] at hg
                  exact htr (Option.some.inj hg).symm
                have hlbt : lb.name ≠ t := by
                  intro hlt
                  have hnone := getRightBoneName_no_chain hg
                  rw [← hlt] at hnone
                  rw [hnone] at hr
                  cases hr
                refine ⟨hnames', ?_, ?_⟩
                · intro j b hj hb
                  rw [hstep, hmap, List.getElem?_map, hleft j b hj hb]
                  simp only [Option.map_some']
                  rw [if_neg (show ¬ b.name = t from by rw [hb]; exact hlbt)]
                · intro j b hj hb
                  have hbt : ¬ b.name = t := by
                    rw [hb]; exact fun h => htr h.symm
                  rw [hstep, hmap, List.getElem?_map, hright j b hj hb]
                  by_cases hjk : jl < k
                  · rw [if_pos hjk, if_pos (by omega : jl < k + 1)]
                    simp only [Option.map_some']
                    rw [if_neg (show ¬ (mirrorIk lb b).name = t from hbt)]
                  · rw [if_neg hjk, if_neg (by omega : ¬ jl < k + 1)]
                    simp only [Option.map_some']
                    rw [if_neg hbt]

/-- C3 (amended): after `SymmetrizeIKConstraints` runs, for every pose bone
whose name matches `^(.+)_L$` and whose partner with the stem plus `_R`
exists in the same armature, the partner's IK limits are the mirror of the
left bone's (`ik_min_x`/`ik_max_x` copied, the y and z limits negated and
swapped) — provided no other pose bone maps to the same right-bone name
(under Python matching a second name equal to the left name plus a trailing
newline would map to the same partner and, iterated later, override the
copy). -/
theorem symmetrizeIK_spec (bones : List IkBone) (lb rb : IkBone)
    (rbname : List Char)
    (hnd : (bones.map IkBone.name).Nodup)
    (hlb : lb ∈ bones)
    (hr : getRightBoneName lb.name = some rbname)
    (hrb : rb ∈ bones) (hrbname : rb.name = rbname)
    (huniq : ∀ b ∈ bones, getRightBoneName b.name = some rbname → b.name = lb.name) :
    ∃ rb' ∈ symmetrizeLoop bones, rb'.name = rbname
      ∧ rb'.ik_min_x = lb.ik_min_x ∧ rb'.ik_max_x = lb.ik_max_x
      ∧ rb'.ik_min_y = -lb.ik_max_y ∧ rb'.ik_max_y = -lb.ik_min_y
      ∧ rb'.ik_min_z = -lb.ik_max_z ∧ rb'.ik_max_z = -lb.ik_min_z := by
  obtain ⟨jl, hjl⟩ := List.mem_iff_getElem?.mp hlb
  obtain ⟨jr, hjr⟩ := List.mem_iff_getElem?.mp hrb
  obtain ⟨-, -, hright⟩ :=
    symLoop_invariant bones lb rbname jl hnd hjl hr huniq bones.length
  have hjllen : jl < bones.length := (List.getElem?_eq_some.mp hjl).1
  have hfin : (symmetrizeLoop bones)[jr]? = some (mirrorIk lb rb) := by
    have h0 := hright jr rb hjr hrbname
    rw [if_pos hjllen] at h0
    exact h0
  refine ⟨mirrorIk lb rb, ?_, hrbname, rfl, rfl, rfl, rfl, rfl, rfl⟩
  obtain ⟨hlt, hget⟩ := List.getElem?_eq_some.mp hfin
  exact hget ▸ List.getElem_mem hlt

/-- Concrete armature for the C3 counterexample: under Python matching both
`"x_L"` and `"x_L\n"` map to the right name `"x_R"`; the later bone's write
overrides the earlier one's. -/
def cbones : List IkBone :=
  [ { name := "x_L".data, rotation_mode := 0,
      ik_min_x := 0, ik_max_x := 0, ik_min_y := 0, ik_max_y := 1,
      ik_min_z := 0, ik_max_z := 0 },
    { name := "x_L\n".data, rotation_mode := 0,
      ik_min_x := 0, ik_max_x := 0, ik_min_y := 0, ik_max_y := 2,
      ik_min_z := 0, ik_max_z := 0 },
    { name := "x_R".data, rotation_mode := 0,
      ik_min_x := 0, ik_max_x := 0, ik_min_y := 0, ik_max_y := 0,
      ik_min_z := 0, ik_max_z := 0 } ]

/-- C3 counterexample: in `cbones` the bone `"x_L"` matches `^(.+)_L$` and
its partner `"x_R"` exists, yet after the loop `"x_R"`'s `ik_min_y` is `-2`
(the mirror of `"x_L\n"`, which Python's `$` also lets match and which is
iterated later), not `-1`, the mirror of `"x_L"` the claim requires. -/
theorem symmetrizeIK_counterexample :
    ∃ lb ∈ cbones, ∃ rb ∈ cbones,
      getRightBoneName lb.name = some rb.name
      ∧ ∀ rb' ∈ symmetrizeLoop cbones,
          rb'.name = rb.name → rb'.ik_min_y ≠ -lb.ik_max_y := by decide

/-- A pose bone as `ClearBoneTransforms` sees it: transform channels plus the
per-channel lock flags (which the direct property assignments ignore — locks
only constrain interactive tools). -/
structure TBone where
  location : Vec3
  rotation_quaternion : Vec4
  scale : Vec3
  lock_location : Bool × Bool × Bool
  lock_rotation : Bool × Bool × Bool
  lock_scale : Bool × Bool × Bool
deriving DecidableEq

/-- `ClearBoneTransforms.execute.clear`. -/
def clearBone (b : TBone) : TBone :=
  { b with
    location := (0, 0, 0)
    rotation_quaternion := (1, 0, 0, 0)
    scale := (1, 1, 1) }

/-- `ClearBoneTransforms.execute`: clear every pose bone of every selected
armature. -/
def clearBoneTransforms (selected : List (List TBone)) : List (List TBone) :=
  selected.map (List.map clearBone)

/-- C7: after `ClearBoneTransforms` runs, every pose bone of every selected
armature has location `(0,0,0)`, identity rotation quaternion `(1,0,0,0)`
and scale `(1,1,1)`, regardless of the lock flags (which are neither read
nor written). -/
theorem clearBoneTransforms_spec (selected : List (List TBone)) :
    ∀ arm ∈ clearBoneTransforms selected, ∀ b ∈ arm,
      b.location = (0, 0, 0)
      ∧ b.rotation_quaternion = (1, 0, 0, 0)
      ∧ b.scale = (1, 1, 1)
      ∧ ∃ b0 ∈ selected.flatten, b = clearBone b0
        ∧ b.lock_location = b0.lock_location
        ∧ b.lock_rotation = b0.lock_rotation
        ∧ b.lock_scale = b0.lock_scale := by
  intro arm harm b hb
  obtain ⟨arm0, harm0, rfl⟩ := List.mem_map.mp harm
  obtain ⟨b0, hb0, rfl⟩ := List.mem_map.mp hb
  refine ⟨rfl, rfl, rfl, b0, ?_, rfl, rfl, rfl, rfl⟩
  exact List.mem_flatten.mpr ⟨arm0, harm0, hb0⟩

/-- The per-bone state `RepositionBones.execute` manipulates: the edit-bone
endpoint coordinates (armature space) and the pose bone's custom properties
`bony_original_saved`, `bony_original_co_head`, `bony_original_co_tail`. -/
structure BoneState where
  head : Vec3
  tail : Vec3
  bony_original_saved : Bool
  bony_original_co_head : Vec3
  bony_original_co_tail : Vec3
deriving DecidableEq

/-- `RepositionBones.N_CLOSEST_VER`. -/
def nClosestVer : ℕ := 10

/-- The body of the edit-bone loop in `RepositionBones.execute` for one bone:
`w` is `armature.matrix_world` as a map on coordinates, `winv` its inverse,
`newCo` the repositioning function applied to the endpoint coordinates. -/
def repositionBone (w winv : Vec3 → Vec3) (newCo : Vec3 → Vec3)
    (b : BoneState) : BoneState :=
  if b.bony_original_saved then
    let head_co := b.bony_original_co_head
    let tail_co := b.bony_original_co_tail
    { b with head := winv (newCo head_co), tail := winv (newCo tail_co) }
  else
    let head_co := w b.head
    let tail_co := w b.tail
    { head := winv (newCo head_co)
      tail := winv (newCo tail_co)
      bony_original_saved := true
      bony_original_co_head := head_co
      bony_original_co_tail := tail_co }

/-- The endpoint repositioning used in the loop:
`calculate_new_co(co, N_CLOSEST_VER, evaluated_vertices, raw_vertices, kd)`. -/
def repositionNewCo (evaluated_vertices raw_vertices : List Vec3)
    (kd : Vec3 → ℕ → List (Vec3 × ℕ × ℚ)) : Vec3 → Vec3 :=
  fun co => calculate_new_co co nClosestVer evaluated_vertices raw_vertices kd

/-- The whole edit-bone loop of `RepositionBones.execute` (each bone's update
is independent of the others'). -/
def repositionExecute (w winv : Vec3 → Vec3)
    (evaluated_vertices raw_vertices : List Vec3)
    (kd : Vec3 → ℕ → List (Vec3 × ℕ × ℚ)) (bones : List BoneState) :
    List BoneState :=
  bones.map (repositionBone w winv (repositionNewCo evaluated_vertices raw_vertices kd))

/-- C8: `RepositionBones` is idempotent under an unchanged shape-key state:
a first run stores each unsaved bone's world-space endpoint coordinates in
the custom properties and sets `bony_original_saved`; every run on a saved
bone recomputes positions from the stored originals (not from the already
moved endpoints) and leaves the stored originals untouched, so running the
operator twice gives the same bone state as running it once. -/
theorem repositionBones_idempotent (w winv : Vec3 → Vec3)
    (evaluated_vertices raw_vertices : List Vec3)
    (kd : Vec3 → ℕ → List (Vec3 × ℕ × ℚ)) (bones : List BoneState) :
    repositionExecute w winv evaluated_vertices raw_vertices kd
        (repositionExecute w winv evaluated_vertices raw_vertices kd bones)
      = repositionExecute w winv evaluated_vertices raw_vertices kd bones
    ∧ (∀ b : BoneState, b.bony_original_saved = false →
        (repositionBone w winv (repositionNewCo evaluated_vertices raw_vertices kd) b).bony_original_saved = true
        ∧ (repositionBone w winv (repositionNewCo evaluated_vertices raw_vertices kd) b).bony_original_co_head = w b.head
        ∧ (repositionBone w winv (repositionNewCo evaluated_vertices raw_vertices kd) b).bony_original_co_tail = w b.tail)
    ∧ (∀ b : BoneState, b.bony_original_saved = true →
        (repositionBone w winv (repositionNewCo evaluated_vertices raw_vertices kd) b).head
            = winv (repositionNewCo evaluated_vertices raw_vertices kd b.bony_original_co_head)
        ∧ (repositionBone w winv (repositionNewCo evaluated_vertices raw_vertices kd) b).tail
            = winv (repositionNewCo evaluated_vertices raw_vertices kd b.bony_original_co_tail)
        ∧ (repositionBone w winv (repositionNewCo evaluated_vertices raw_vertices kd) b).bony_original_co_head
            = b.bony_original_co_head
        ∧ (repositionBone w winv (repositionNewCo evaluated_vertices raw_vertices kd) b).bony_original_co_tail
            = b.bony_original_co_tail) := by
  refine ⟨?_, ?_, ?_⟩
  · unfold repositionExecute
    rw [List.map_map]
    apply List.map_congr_left
    intro b _
    show repositionBone w winv (repositionNewCo evaluated_vertices raw_vertices kd)
        (repositionBone w winv (repositionNewCo evaluated_vertices raw_vertices kd) b)
      = repositionBone w winv (repositionNewCo evaluated_vertices raw_vertices kd) b
    by_cases hb : b.bony_original_saved
    · simp [repositionBone, hb]
    · simp [repositionBone, hb]
  · intro b hb
    simp [repositionBone, hb]
  · intro b hb
    simp [repositionBone, hb]

deriving instance DecidableEq for Except

/-- Modifier type: the code only distinguishes `'ARMATURE'` from the rest. -/
inductive ModKind where
  | armature : ModKind
  | other : ModKind
deriving DecidableEq

/-- A mesh modifier as `transfer_rigging.transfer_armature` sees it: a name
(unique per object, the host uniquifies), its type and the object it points
to (an opaque id). -/
structure Modifier where
  name : List Char
  kind : ModKind
  object : Option ℕ
deriving DecidableEq

/-- `bpy.ops.object.modifier_remove(modifier=name)`: drop the (unique) named
modifier. -/
def removeByName (mods : List Modifier) (n : List Char) : List Modifier :=
  match mods with
  | [] => []
  | m :: ms => if m.name = n then ms else removeByName ms n |> (m :: ·)

/-- The removal loop `for m in target.modifiers: if m.type == 'ARMATURE':
modifier_remove(m.name)`.  The iteration is by position over the live
collection: after removing the element at the cursor the next element shifts
into its place and is skipped, the standard behaviour of removing from a
`bpy` collection while iterating it.  The fuel (initial length) bounds the
number of steps; iteration stops as soon as the cursor runs past the end. -/
def armRemovalSteps : ℕ → ℕ → List Modifier → List Modifier
  | 0, _, mods => mods
  | fuel + 1, i, mods =>
      match mods[i]? with
      | none => mods
      | some m =>
          if m.kind = ModKind.armature then
            armRemovalSteps fuel (i + 1) (removeByName mods m.name)
          else
            armRemovalSteps fuel (i + 1) mods

/-- The `# Remove existing armatures if any` loop of `transfer_armature`. -/
def removeArmatureModifiers (mods : List Modifier) : List Modifier :=
  armRemovalSteps mods.length 0 mods

/-- `bpy.ops.object.modifier_move_to_index(modifier=name, index=0)`. -/
def moveToFront (mods : List Modifier) (n : List Char) : List Modifier :=
  match mods.find? (fun m => m.name = n) with
  | some m => m :: removeByName mods n
  | none => mods

/-- `transfer_rigging.transfer_armature`: remove the target's armature
modifiers (with the skip-prone live iteration), append a new `'ARMATURE'`
modifier under a fresh host-chosen name, point it at the object of the
source's first armature modifier — or raise `RuntimeError` when the source
has none — and move the new modifier to the front. -/
def transferArmature (sourceMods targetMods : List Modifier)
    (newName : List Char) : Except (List Char) (List Modifier) :=
  let cleared := removeArmatureModifiers targetMods
  match sourceMods.filter (fun m => decide (m.kind = ModKind.armature)) with
  | [] => Except.error "Source has no armature!".data
  | s :: _ =>
      let ar : Modifier := { name := newName, kind := ModKind.armature, object := s.object }
      Except.ok (moveToFront (cleared ++ [ar]) newName)

/-- Number of armature modifiers on an object. -/
def armCount (mods : List Modifier) : ℕ :=
  (mods.filter fun m => decide (m.kind = ModKind.armature)).length

/-- The C5 failing input: a target carrying two armature modifiers. -/
def cTargetMods : List Modifier :=
  [ { name := "Armature".data, kind := ModKind.armature, object := some 1 },
    { name := "Armature.001".data, kind := ModKind.armature, object := some 2 } ]

/-- A source with one armature modifier pointing at object `7`. -/
def cSourceMods : List Modifier :=
  [ { name := "Armature".data, kind := ModKind.armature, object := some 7 } ]

/-- C5 evaluated at the failing input: with two armature modifiers on the
target, removing while iterating skips the second one, so the call succeeds
but leaves the target with TWO armature modifiers (the fresh one pointing at
the source's object, plus the survivor), not exactly one as claimed. -/
theorem transferArmature_code_bug :
    transferArmature cSourceMods cTargetMods "Armature.002".data
      = Except.ok
          [ { name := "Armature.002".data, kind := ModKind.armature, object := some 7 },
            { name := "Armature.001".data, kind := ModKind.armature, object := some 2 } ]
    ∧ Except.map armCount (transferArmature cSourceMods cTargetMods "Armature.002".data)
      = Except.ok 2 := by decide

/-- Concrete mesh for the C2 witness. -/
def wMesh : List Vec3 := [(0, 0, 0), (3, 0, 0)]

/-- Concrete (discrete) distance function for the C2 witness, chosen so the
kernel can evaluate every distance to a literal. -/
def wD : Vec3 → Vec3 → ℚ := fun p q => if p = q then 0 else 1

/-- Witness for C2: on a two-vertex mesh, the single triple returned for the
origin is the origin vertex at index 0 with its distance. -/
theorem repositionBones_kdtree_spec_witness :
    (wMesh.map (fun v => v))[(((0, 0, 0), 0, 0) : Vec3 × ℕ × ℚ).2.1]?
        = some (((0, 0, 0), 0, 0) : Vec3 × ℕ × ℚ).1
    ∧ (((0, 0, 0), 0, 0) : Vec3 × ℕ × ℚ).2.2
        = wD (0, 0, 0) (((0, 0, 0), 0, 0) : Vec3 × ℕ × ℚ).1 :=
  (repositionBones_kdtree_spec wD (fun v => v) wMesh [] (0, 0, 0) 1).1
    ((0, 0, 0), 0, 0) (by decide)

/-- Concrete left and right bones for the C3 witness. -/
def wLb : IkBone :=
  { name := "a_L".data, rotation_mode := 1,
    ik_min_x := 1, ik_max_x := 2, ik_min_y := 3, ik_max_y := 4,
    ik_min_z := 5, ik_max_z := 6 }

def wRb : IkBone :=
  { name := "a_R".data, rotation_mode := 0,
    ik_min_x := 0, ik_max_x := 0, ik_min_y := 0, ik_max_y := 0,
    ik_min_z := 0, ik_max_z := 0 }

/-- Witness for C3: on the two-bone armature `[a_L, a_R]` the loop mirrors
`a_L`'s limits onto `a_R`. -/
theorem symmetrizeIK_spec_witness :
    ∃ rb' ∈ symmetrizeLoop [wLb, wRb], rb'.name = "a_R".data
      ∧ rb'.ik_min_x = 1 ∧ rb'.ik_max_x = 2
      ∧ rb'.ik_min_y = -4 ∧ rb'.ik_max_y = -3
      ∧ rb'.ik_min_z = -6 ∧ rb'.ik_max_z = -5 :=
  symmetrizeIK_spec [wLb, wRb] wLb wRb "a_R".data (by decide) (by decide)
    (by decide) (by decide) (by decide)
    (by decide)

/-- Witness for C4: the documented example rename, through the general rule. -/
theorem renameDazBones_rule_witness :
    renameDaz "lForearmBend".data = ('F' :: "orearmBend".data) ++ ['_', 'l'.toUpper] ++ [] :=
  (renameDazBones_rule "lForearmBend".data 'l' 'F' "orearmBend".data []).1
    (by decide) (by decide) (by decide) (by decide) (Or.inl rfl)

/-- Concrete armatures for the C6 witness. -/
def wSrc : List CBone := [{ name := "A".data, custom_shape := some 5 }]

def wTgt : List CBone :=
  [ { name := "A".data, custom_shape := none },
    { name := "B".data, custom_shape := some 1 } ]

/-- Witness for C6. -/
theorem copyCustomShapes_spec_witness :
    copy_custom_shapes wSrc wTgt
      = wTgt.map fun b =>
          match wSrc.find? (fun sb => sb.name = b.name) with
          | some sb => { b with custom_shape := sb.custom_shape }
          | none => b :=
  copyCustomShapes_spec wSrc wTgt (by decide) (by decide)

/-- Concrete locked bone for the C7 witness. -/
def wTB : TBone :=
  { location := (1, 2, 3), rotation_quaternion := (0, 1, 0, 0), scale := (2, 2, 2),
    lock_location := (true, false, true), lock_rotation := (true, true, true),
    lock_scale := (false, true, false) }

/-- Witness for C7: a fully locked-up bone still ends at the rest pose. -/
theorem clearBoneTransforms_spec_witness :
    (clearBone wTB).location = (0, 0, 0)
    ∧ (clearBone wTB).rotation_quaternion = (1, 0, 0, 0)
    ∧ (clearBone wTB).scale = (1, 1, 1)
    ∧ ∃ b0 ∈ ([[wTB]] : List (List TBone)).flatten, clearBone wTB = clearBone b0
      ∧ (clearBone wTB).lock_location = b0.lock_location
      ∧ (clearBone wTB).lock_rotation = b0.lock_rotation
      ∧ (clearBone wTB).lock_scale = b0.lock_scale :=
  clearBoneTransforms_spec [[wTB]] [clearBone wTB] (by decide)
    (clearBone wTB) (by decide)

/-- Concrete unsaved bone for the C8 witness. -/
def wBS : BoneState :=
  { head := (1, 0, 0), tail := (0, 1, 0), bony_original_saved := false,
    bony_original_co_head := (0, 0, 0), bony_original_co_tail := (0, 0, 0) }

/-- Witness for C8: a first run on an unsaved bone records its world-space
endpoints and marks it saved. -/
theorem repositionBones_idempotent_witness :
    (repositionBone (fun v => v) (fun v => v)
        (repositionNewCo [] [] (fun _ _ => [])) wBS).bony_original_saved = true
    ∧ (repositionBone (fun v => v) (fun v => v)
        (repositionNewCo [] [] (fun _ _ => [])) wBS).bony_original_co_head
      = (fun v : Vec3 => v) wBS.head
    ∧ (repositionBone (fun v => v) (fun v => v)
        (repositionNewCo [] [] (fun _ _ => [])) wBS).bony_original_co_tail
      = (fun v : Vec3 => v) wBS.tail :=
  (repositionBones_idempotent (fun v => v) (fun v => v) [] [] (fun _ _ => []) []).2.1
    wBS (by decide)

/-- Witness for C10: a one-entry tree and `n = 1` give a strictly positive
total weight. -/
theorem calc_total_weight_pos_witness :
    (∀ t ∈ kdFindN (fun _ _ => (1 : ℚ)) [((0, 0, 0), 0)] (0, 0, 0) 1,
        0 < kdWeight t.2.2)
    ∧ 0 < (calcAccum [] [] (kdFindN (fun _ _ => (1 : ℚ)) [((0, 0, 0), 0)] (0, 0, 0) 1)).1 :=
  calc_total_weight_pos (fun _ _ => (1 : ℚ)) [((0, 0, 0), 0)] (0, 0, 0) 1 [] []
    (fun _ _ => zero_le_one) (by decide) (by decide)
